import Mathlib

/-
Verification of the currence prediction-market contract core
(src/market/src/market.rs, src/market/src/lib.rs, src/market/src/lmsr.rs).

Modelling conventions:
- u128 values are embedded as Nat with explicit bounds checks against 2^128;
  the checked_add / checked_sub / checked_mul / checked_div calls of the
  source are embedded as functions that return an ArithmeticOverflow error
  outside the representable range.
- A panic (assert!, unwrap, env::panic) aborts the whole NEAR transaction
  with no observable state change, so every operation is embedded as a
  function into Except Err (new state): an error result leaves no state.
- The aggregate shares vector is Vec of f64 in the source while all account
  balances are u128.  All values that ever reach the shares vector are
  integers, so the f64 contents are embedded as integers together with the
  IEEE-754 binary64 rounding (round to nearest, ties to even) that the cast
  u128-to-f64 and the f64 add / sub perform on integer-valued operands.
- The floating point LMSR price (calc_price_without_fee) is abstracted: the
  integer operations take the resulting base_price as a parameter.
-/

namespace Currence

/-- 2^128, the number of values of the Rust u128 type. -/
def U128LIMIT : ℕ := 2 ^ 128

/-- Modelled from the spec: the error taxonomy of section 7.  The source
declares `mod errors` but no errors.rs file is present under src/; every
failure in src/ is a panic or assert site, and each constructor here names
the spec error kind of the corresponding panic site (IndexOutOfBounds is the
Rust out-of-bounds indexing panic, NoSuchAccount the
`expect("no such account")` panic in redeem). -/
inductive Err where
  | ValidationError
  | StageError
  | InsufficientPayment
  | SlippageExceeded
  | InsufficientBalance
  | InvalidPayoutVector
  | NotFinalized
  | ZeroPayout
  | ArithmeticOverflow
  | NoSuchAccount
  | IndexOutOfBounds
deriving DecidableEq

instance {ε α : Type} [DecidableEq ε] [DecidableEq α] : DecidableEq (Except ε α) :=
  fun x y =>
    match x, y with
    | .ok a, .ok b =>
      if h : a = b then .isTrue (by rw [h]) else .isFalse (fun hc => h (by cases hc; rfl))
    | .error a, .error b =>
      if h : a = b then .isTrue (by rw [h]) else .isFalse (fun hc => h (by cases hc; rfl))
    | .ok _, .error _ => .isFalse (fun hc => by cases hc)
    | .error _, .ok _ => .isFalse (fun hc => by cases hc)

/-- u128::checked_add followed by unwrap: the exact sum when it fits in
u128, an overflow abort otherwise. -/
def checked_add (a b : ℕ) : Except Err ℕ :=
  if a + b < U128LIMIT then .ok (a + b) else .error .ArithmeticOverflow

/-- u128::checked_sub followed by unwrap: the exact difference when the
subtrahend does not exceed the minuend, an overflow abort otherwise. -/
def checked_sub (a b : ℕ) : Except Err ℕ :=
  if b ≤ a then .ok (a - b) else .error .ArithmeticOverflow

/-- u128::checked_mul followed by unwrap. -/
def checked_mul (a b : ℕ) : Except Err ℕ :=
  if a * b < U128LIMIT then .ok (a * b) else .error .ArithmeticOverflow

/-- u128::checked_div followed by unwrap (fails only for divisor zero). -/
def checked_div (a b : ℕ) : Except Err ℕ :=
  if b = 0 then .error .ArithmeticOverflow else .ok (a / b)

/-- Modelled from the spec: the crate build profile (Cargo.toml) is not
under src/, and spec section 7 requires every fixed-point operation to be
overflow-checked and never silently wrapped, so the unchecked u128
operations of the source (the `+=` in credit and deposit_collateral and the
iterator `.sum()` in redeem and resolve_market) are modelled as trapping on
overflow. -/
def u128add (a b : ℕ) : Except Err ℕ :=
  if a + b < U128LIMIT then .ok (a + b) else .error .ArithmeticOverflow

/-- Number of halvings needed to bring n strictly below 2^53, with a fuel
bound of 256 (exact for every n < 2^(53+256), far beyond the u128 range
used in this development). -/
def shift53 : ℕ → ℕ → ℕ
  | 0, _ => 0
  | fuel + 1, n => if n < 2 ^ 53 then 0 else shift53 fuel (n / 2) + 1

/-- Round to nearest, ties to even, of a natural number onto the integers
exactly representable in IEEE-754 binary64 (those of the form m * 2^e with
m < 2^53).  This is the value of the Rust cast `n as f64` and of a
correctly rounded f64 operation whose exact result is n. -/
def roundNatF64 (n : ℕ) : ℕ :=
  if n ≤ 2 ^ 53 then n
  else
    let e := shift53 256 n
    let q := n / 2 ^ e
    let r := n % 2 ^ e
    let half := 2 ^ (e - 1)
    if r < half then q * 2 ^ e
    else if half < r then (q + 1) * 2 ^ e
    else if q % 2 = 0 then q * 2 ^ e
    else (q + 1) * 2 ^ e

/-- Sign-symmetric extension of roundNatF64 to the integers (IEEE-754
rounding commutes with negation). -/
def roundF64 (z : ℤ) : ℤ :=
  if z < 0 then -(roundNatF64 (-z).toNat : ℤ) else (roundNatF64 z.toNat : ℤ)

/-- IEEE-754 binary64 addition restricted to integer-valued operands within
finite range: the correctly rounded exact sum. -/
def fAdd (a b : ℤ) : ℤ := roundF64 (a + b)

/-- IEEE-754 binary64 subtraction restricted to integer-valued operands
within finite range: the correctly rounded exact difference. -/
def fSub (a b : ℤ) : ℤ := roundF64 (a - b)

/-- The Rust cast `num_shares as f64` on a u128 value. -/
def natToF64 (n : ℕ) : ℤ := (roundNatF64 n : ℤ)

/-- Finalization from market.rs.  The Resolved variant of the source
declares an outcome_id payload, but no code under src/ ever constructs or
reads it (lib.rs line 74 constructs a bare `Finalization::Resolved` and
redeem reads the separate payouts field), so it is embedded without the
payload. -/
inductive Finalization where
  | Resolved
  | Invalid
deriving DecidableEq

/-- Stage from market.rs. -/
inductive Stage where
  | Pending
  | Open
  | Paused
  | Finalized (f : Finalization)
deriving DecidableEq

/-- Outcome from market.rs (id plus display names, fixed at creation). -/
structure Outcome where
  id : ℕ
  short_name : String
  long_name : String
deriving DecidableEq

/-- Market from market.rs.  Purely descriptive or settlement-routing fields
that no claim mentions are omitted (id, title, description,
collateral_token, oracle, operator, fee_owner, volume), as is the f64
liquidity parameter, which only feeds the floating point pricing that is
abstracted as the base_price parameter of the order operations.  The
LookupMap of account balances is embedded as an association list. -/
structure Market where
  collateral_decimals : ℕ
  deposited_collateral : ℕ
  minimum_deposit : ℕ
  end_time : ℕ
  resolution_time : ℕ
  outcomes : List Outcome
  shares : List ℤ
  payouts : Option (List ℕ)
  stage : Stage
  trade_fee_bps : ℕ
  fees_accrued : ℕ
  accounts : List (String × List ℕ)
deriving DecidableEq

/-- LookupMap::get on the accounts map. -/
def lookupAcc (a : String) : List (String × List ℕ) → Option (List ℕ)
  | [] => none
  | (b, v) :: t => if a = b then some v else lookupAcc a t

/-- LookupMap::insert on the accounts map: replaces the binding of the key
if present, appends it otherwise. -/
def insertAcc (a : String) (v : List ℕ) : List (String × List ℕ) → List (String × List ℕ)
  | [] => [(a, v)]
  | (b, w) :: t => if a = b then (a, v) :: t else (b, w) :: insertAcc a v t

/-- Market::get_or_create_balances: the stored balance vector, or a zero
vector sized to the outcome count if the account never traded. -/
def get_or_create_balances (m : Market) (a : String) : List ℕ :=
  match lookupAcc a m.accounts with
  | some b => b
  | none => List.replicate m.outcomes.length 0

/-- Market::assert_trading_allowed: stage must be Open and the current time
strictly before end_time (spec section 4.2: violation is a StageError). -/
def assert_trading_allowed (now : ℕ) (m : Market) : Except Err Unit :=
  if m.stage = Stage.Open then
    if now < m.end_time then .ok () else .error .StageError
  else .error .StageError

/-- Market::assert_finalized. -/
def assert_finalized (m : Market) : Except Err Unit :=
  match m.stage with
  | .Finalized _ => .ok ()
  | _ => .error .NotFinalized

/-- Market::validate: outcome count positive, end_time and resolution_time
strictly in the future, deposited collateral at least the minimum. -/
def validate (now : ℕ) (m : Market) : Except Err Unit :=
  if 0 < m.outcomes.length ∧ now < m.end_time ∧ now < m.resolution_time ∧
      m.minimum_deposit ≤ m.deposited_collateral then .ok ()
  else .error .ValidationError

/-- Market::open (market.rs lines 164-168): validate, require stage Paused
or Pending, set stage Open. -/
def open_market (now : ℕ) (m : Market) : Except Err Market :=
  match validate now m with
  | .error e => .error e
  | .ok _ =>
    if m.stage = Stage.Paused ∨ m.stage = Stage.Pending then
      .ok { m with stage := Stage.Open }
    else .error .StageError

/-- Market::pause (market.rs lines 170-173). -/
def pause (m : Market) : Except Err Market :=
  if m.stage = Stage.Open then .ok { m with stage := Stage.Paused }
  else .error .StageError

/-- Market::deposit_collateral (market.rs lines 175-179): requires Pending;
the unchecked `+=` is modelled by u128add. -/
def deposit_collateral (m : Market) (amount : ℕ) : Except Err Market :=
  if m.stage = Stage.Pending then
    match u128add m.deposited_collateral amount with
    | .error e => .error e
    | .ok v => .ok { m with deposited_collateral := v }
  else .error .StageError

/-- Market::calc_fee (market.rs lines 234-242):
base_price.checked_div(100).unwrap().checked_mul(trade_fee_bps).unwrap(). -/
def calc_fee (m : Market) (base_price : ℕ) : Except Err ℕ :=
  match checked_div base_price 100 with
  | .error e => .error e
  | .ok d => checked_mul d m.trade_fee_bps

/-- Market::deposit_fees (market.rs lines 244-246):
fees_accrued.checked_add(amount).unwrap(). -/
def deposit_fees (m : Market) (amount : ℕ) : Except Err Market :=
  match checked_add m.fees_accrued amount with
  | .error e => .error e
  | .ok v => .ok { m with fees_accrued := v }

/-- Market::credit (market.rs lines 304-311): requires trading allowed,
adds num_shares to the account balance at outcome_id (unchecked u128 `+=`,
modelled by u128add), stores the vector back, and adds `num_shares as f64`
to the aggregate shares entry with an f64 addition. -/
def credit (now : ℕ) (m : Market) (account_id : String) (outcome_id : ℕ)
    (num_shares : ℕ) : Except Err Market :=
  match assert_trading_allowed now m with
  | .error e => .error e
  | .ok _ =>
    let balances := get_or_create_balances m account_id
    if outcome_id < balances.length then
      match u128add (balances.getD outcome_id 0) num_shares with
      | .error e => .error e
      | .ok v =>
        if outcome_id < m.shares.length then
          .ok { m with
                  accounts := insertAcc account_id (balances.set outcome_id v) m.accounts,
                  shares := m.shares.set outcome_id
                    (fAdd (m.shares.getD outcome_id 0) (natToF64 num_shares)) }
        else .error .IndexOutOfBounds
    else .error .IndexOutOfBounds

/-- Market::debit (market.rs lines 313-325): requires trading allowed,
fails (panic) when the holding at outcome_id is smaller than num_shares,
otherwise subtracts, stores the vector back, and subtracts
`num_shares as f64` from the aggregate shares entry with an f64
subtraction. -/
def debit (now : ℕ) (m : Market) (account_id : String) (outcome_id : ℕ)
    (num_shares : ℕ) : Except Err Market :=
  match assert_trading_allowed now m with
  | .error e => .error e
  | .ok _ =>
    let balances := get_or_create_balances m account_id
    if outcome_id < balances.length then
      if balances.getD outcome_id 0 < num_shares then .error .InsufficientBalance
      else
        if outcome_id < m.shares.length then
          .ok { m with
                  accounts := insertAcc account_id
                    (balances.set outcome_id (balances.getD outcome_id 0 - num_shares)) m.accounts,
                  shares := m.shares.set outcome_id
                    (fSub (m.shares.getD outcome_id 0) (natToF64 num_shares)) }
        else .error .IndexOutOfBounds
    else .error .IndexOutOfBounds

/-- Market::internal_buy (market.rs lines 343-374).  base_price stands for
calc_price_without_fee(outcome_id, num_shares, Buy), the f64 LMSR price
whose floating point evaluation is abstracted as a parameter.  Returns the
new market and the change amount - cost refunded to the payer. -/
def internal_buy (now : ℕ) (m : Market) (sender_id : String) (amount : ℕ)
    (num_shares : ℕ) (outcome_id : ℕ) (base_price : ℕ) :
    Except Err (Market × ℕ) :=
  match assert_trading_allowed now m with
  | .error e => .error e
  | .ok _ =>
    if outcome_id < m.outcomes.length then
      match calc_fee m base_price with
      | .error e => .error e
      | .ok fee =>
        match checked_add base_price fee with
        | .error e => .error e
        | .ok cost =>
          if amount < cost then .error .InsufficientPayment
          else
            match credit now m sender_id outcome_id num_shares with
            | .error e => .error e
            | .ok m1 =>
              match deposit_fees m1 fee with
              | .error e => .error e
              | .ok m2 => .ok (m2, amount - cost)
    else .error .IndexOutOfBounds

/-- Market::internal_sell (market.rs lines 376-415).  base_price stands for
calc_price_without_fee(outcome_id, num_shares, Sell); the amount parameter
is the minimum acceptable proceeds of the slippage check.  Returns the new
market and the sell_amount transferred to the seller. -/
def internal_sell (now : ℕ) (m : Market) (sender_id : String) (amount : ℕ)
    (num_shares : ℕ) (outcome_id : ℕ) (base_price : ℕ) :
    Except Err (Market × ℕ) :=
  match assert_trading_allowed now m with
  | .error e => .error e
  | .ok _ =>
    if outcome_id < m.outcomes.length then
      match calc_fee m base_price with
      | .error e => .error e
      | .ok fee =>
        match checked_sub base_price fee with
        | .error e => .error e
        | .ok sell_amount =>
          if sell_amount < amount then .error .SlippageExceeded
          else
            match debit now m sender_id outcome_id num_shares with
            | .error e => .error e
            | .ok m1 =>
              match deposit_fees m1 fee with
              | .error e => .error e
              | .ok m2 => .ok (m2, sell_amount)
    else .error .IndexOutOfBounds

/-- The redeem payout sum (market.rs lines 277-281):
balances.iter().zip(payouts).map(checked_mul unwrapped).sum(), with the
unchecked iterator sum modelled as trapping (see u128add). -/
def sum_products_aux : ℕ → List (ℕ × ℕ) → Except Err ℕ
  | acc, [] => .ok acc
  | acc, (b, p) :: t =>
    if b * p < U128LIMIT then
      if acc + b * p < U128LIMIT then sum_products_aux (acc + b * p) t
      else .error .ArithmeticOverflow
    else .error .ArithmeticOverflow

/-- The redeem payout of a balance vector against a payout-weight vector. -/
def sum_products (balances payouts : List ℕ) : Except Err ℕ :=
  sum_products_aux 0 (balances.zip payouts)

/-- Market::redeem (market.rs lines 272-302): requires Finalized, panics
with "no such account" when the account has no balance record, computes the
payout against the stored weights (zero when none are stored), fails when
the payout is zero (assert payout > 0), and otherwise requests a transfer
of exactly the payout without clearing the balances.  Returns the unchanged
market and the transferred payout. -/
def redeem (m : Market) (account_id : String) : Except Err (Market × ℕ) :=
  match assert_finalized m with
  | .error e => .error e
  | .ok _ =>
    match lookupAcc account_id m.accounts with
    | none => .error .NoSuchAccount
    | some balances =>
      match (match m.payouts with
             | some p => sum_products balances p
             | none => .ok 0) with
      | .error e => .error e
      | .ok payout =>
        if payout = 0 then .error .ZeroPayout
        else .ok (m, payout)

/-- Contract::resolve_market (lib.rs lines 62-86): requires stage Paused or
Open and matching lengths, sums the payout vector (unchecked iterator sum,
modelled as trapping), and matches the sum: equal to collateral_decimals
(the guard actually written in the source) resolves the market storing the
weights, zero finalizes it as Invalid storing none, anything else panics
with "Invalid payout vector". -/
def resolve_market (m : Market) (payouts : List ℕ) : Except Err Market :=
  if m.stage = Stage.Paused ∨ m.stage = Stage.Open then
    if m.outcomes.length = payouts.length then
      match payouts.foldlM u128add 0 with
      | .error e => .error e
      | .ok s =>
        if s = m.collateral_decimals then
          .ok { m with payouts := some payouts, stage := Stage.Finalized Finalization.Resolved }
        else if s = 0 then
          .ok { m with payouts := none, stage := Stage.Finalized Finalization.Invalid }
        else .error .InvalidPayoutVector
    else .error .ValidationError
  else .error .StageError

/-- Market::withdraw_fees (market.rs lines 248-262): requires positive
accrued fees, resets them to zero and transfers them.  Returns the new
market and the transferred fees. -/
def withdraw_fees (m : Market) : Except Err (Market × ℕ) :=
  if 0 < m.fees_accrued then .ok ({ m with fees_accrued := 0 }, m.fees_accrued)
  else .error .ValidationError

/-- The sum over all account records of the balance at outcome index i. -/
def sumBalances (accounts : List (String × List ℕ)) (i : ℕ) : ℕ :=
  (accounts.map (fun p => p.2.getD i 0)).sum

/-- Ledger/aggregate consistency (spec section 3): the aggregate
outstanding-shares entry of every outcome equals the sum over all accounts
of that account balance entry. -/
def LedgerInv (m : Market) : Prop :=
  ∀ i, i < m.outcomes.length → m.shares.getD i 0 = (sumBalances m.accounts i : ℤ)

instance (m : Market) : Decidable (LedgerInv m) := by
  unfold LedgerInv
  exact Nat.decidableBallLT _ _

namespace Lmsr

/-
The LMSR pricing functions of src/market/src/lmsr.rs operate on f64.  For
the comparison of the evaluation formula against the spec formula the f64
arithmetic is embedded over the rationals with the transcendental functions
exp and ln as uninterpreted parameters (fexp, fln): two computations that
agree as functions of their primitive operations are exactly the ones that
reproduce each other bitwise under a common IEEE implementation of those
operations.
-/

/-- lmsr.rs coefficient (lines 9-24): returns the vector of volumes divided
by the liquidity, and the running maximum of those quotients where the
mutable maximum starts at 0.0 and is raised by every strictly larger
quotient. -/
def coefficient (liquidity : ℚ) (volumes : List ℚ) : List ℚ × ℚ :=
  (volumes.map (fun v => v / liquidity),
   volumes.foldl (fun acc v => if acc < v / liquidity then v / liquidity else acc) 0)

/-- lmsr.rs shift_exp_sum (lines 26-28): left fold from 0.0 of
acc + exp(v - max). -/
def shift_exp_sum (fexp : ℚ → ℚ) (mx : ℚ) (data : List ℚ) : ℚ :=
  data.foldl (fun acc v => acc + fexp (v - mx)) 0

/-- lmsr.rs ln_sum (lines 30-35). -/
def ln_sum (fexp fln : ℚ → ℚ) (liquidity : ℚ) (volumes : List ℚ) : ℚ :=
  let c := coefficient liquidity volumes
  fln (shift_exp_sum fexp c.2 c.1) + c.2

/-- lmsr.rs cost (lines 37-39): liquidity * ln_sum(liquidity, volumes). -/
def cost (fexp fln : ℚ → ℚ) (liquidity : ℚ) (volumes : List ℚ) : ℚ :=
  liquidity * ln_sum fexp fln liquidity volumes

/-- The maximum over i of volumes i / liquidity, as the spec words it (the
maximum of the entries themselves, not clamped at zero); 0 for the empty
vector, which cannot occur for an opened market. -/
def spec_max (liquidity : ℚ) (volumes : List ℚ) : ℚ :=
  match volumes.map (fun v => v / liquidity) with
  | [] => 0
  | x :: t => t.foldl (fun acc v => if acc < v then v else acc) x

/-- Follows the words of spec section 4.1 for the refinement comparison:
cost = b * (m + ln(sum of exp(q i / b - m))) with m the maximum over i of
q i / b.  The spec fixes no summation order, so the same left fold as the
implementation is used and the comparison isolates the shift m. -/
def spec_cost (fexp fln : ℚ → ℚ) (liquidity : ℚ) (volumes : List ℚ) : ℚ :=
  liquidity * (spec_max liquidity volumes +
    fln (shift_exp_sum fexp (spec_max liquidity volumes)
      (volumes.map (fun v => v / liquidity))))

end Lmsr

/-
Concrete markets used by counterexamples and witnesses.
-/


/-- A small test market awaiting opening: one outcome, sufficient deposit,
empty ledger.  Used to exhibit reachability of the C2 counterexample
state. -/
def C2pending : Market :=
  { collateral_decimals := 9, deposited_collateral := 100 * 10 ^ 9 + 7,
    minimum_deposit := 100 * 10 ^ 9, end_time := 10, resolution_time := 10,
    outcomes := [⟨0, "yes", "Yes"⟩], shares := [0], payouts := none,
    stage := Stage.Pending, trade_fee_bps := 1, fees_accrued := 0, accounts := [] }

/-- The C2pending market once opened. -/
def C2open : Market := { C2pending with stage := Stage.Open }

/-- The C2open market after crediting 2^53 + 1 shares: the u128 balance
holds 2^53 + 1 but the f64 aggregate holds only 2^53. -/
def C2after : Market :=
  { C2open with accounts := [("alice", [2 ^ 53 + 1])], shares := [(2 ^ 53 : ℤ)] }

/-- The C2open market after crediting 5 shares (witness state, exactly
representable). -/
def C2wafter : Market :=
  { C2open with accounts := [("alice", [5])], shares := [(5 : ℤ)] }

/-- A one-outcome open market with zero fee rate, used by the C3
counterexample. -/
def C3m : Market :=
  { collateral_decimals := 9, deposited_collateral := 100 * 10 ^ 9,
    minimum_deposit := 100 * 10 ^ 9, end_time := 10, resolution_time := 10,
    outcomes := [⟨0, "yes", "Yes"⟩], shares := [0], payouts := none,
    stage := Stage.Open, trade_fee_bps := 0, fees_accrued := 0, accounts := [] }

/-- C3m after buying 2^53 + 1 shares: balance credited in full, aggregate
raised by only 2^53. -/
def C3after : Market :=
  { C3m with accounts := [("bob", [2 ^ 53 + 1])], shares := [(2 ^ 53 : ℤ)] }

/-- A one-outcome open market with fee rate 1, used by the C3 witness. -/
def C3w : Market :=
  { collateral_decimals := 9, deposited_collateral := 100 * 10 ^ 9,
    minimum_deposit := 100 * 10 ^ 9, end_time := 10, resolution_time := 10,
    outcomes := [⟨0, "yes", "Yes"⟩], shares := [0], payouts := none,
    stage := Stage.Open, trade_fee_bps := 1, fees_accrued := 0, accounts := [] }

/-- A one-outcome open market whose ledger satisfies the aggregate
invariant with a large total, used by the C4 counterexample. -/
def C4m : Market :=
  { collateral_decimals := 9, deposited_collateral := 100 * 10 ^ 9,
    minimum_deposit := 100 * 10 ^ 9, end_time := 10, resolution_time := 10,
    outcomes := [⟨0, "yes", "Yes"⟩], shares := [(2 ^ 54 : ℤ)], payouts := none,
    stage := Stage.Open, trade_fee_bps := 0, fees_accrued := 0,
    accounts := [("carol", [2 ^ 53 + 1]), ("dave", [2 ^ 53 - 1])] }

/-- C4m after carol sells 2^53 + 1 shares: her balance is debited in full
but the f64 aggregate drops by only 2^53. -/
def C4after : Market :=
  { C4m with
      accounts := [("carol", [0]), ("dave", [2 ^ 53 - 1])],
      shares := [(2 ^ 53 : ℤ)] }

/-- A one-outcome open market with a 7-share holding, used by the C4
witness. -/
def C4w : Market :=
  { collateral_decimals := 9, deposited_collateral := 100 * 10 ^ 9,
    minimum_deposit := 100 * 10 ^ 9, end_time := 10, resolution_time := 10,
    outcomes := [⟨0, "yes", "Yes"⟩], shares := [(7 : ℤ)], payouts := none,
    stage := Stage.Open, trade_fee_bps := 1, fees_accrued := 0,
    accounts := [("carol", [7])] }

/-- A two-outcome open market with collateral_decimals = 9, used by the C1
evaluation: the spec requires the payout sum 10^9 to resolve it, the code
guard compares the sum against 9. -/
def C1m : Market :=
  { collateral_decimals := 9, deposited_collateral := 100 * 10 ^ 9,
    minimum_deposit := 100 * 10 ^ 9, end_time := 10, resolution_time := 10,
    outcomes := [⟨0, "yes", "Yes"⟩, ⟨1, "no", "No"⟩], shares := [0, 0], payouts := none,
    stage := Stage.Open, trade_fee_bps := 1, fees_accrued := 0, accounts := [] }

/-- A resolved two-outcome market with stored weights and one account,
used by the C5 witness. -/
def C5m : Market :=
  { collateral_decimals := 9, deposited_collateral := 100 * 10 ^ 9,
    minimum_deposit := 100 * 10 ^ 9, end_time := 10, resolution_time := 10,
    outcomes := [⟨0, "yes", "Yes"⟩, ⟨1, "no", "No"⟩], shares := [3, 5],
    payouts := some [600000000, 400000000],
    stage := Stage.Finalized Finalization.Resolved, trade_fee_bps := 1,
    fees_accrued := 0, accounts := [("erin", [3, 5])] }

/-- A small market with fee rate 1, used by the C6 witness. -/
def C6w : Market :=
  { collateral_decimals := 9, deposited_collateral := 100 * 10 ^ 9,
    minimum_deposit := 100 * 10 ^ 9, end_time := 10, resolution_time := 10,
    outcomes := [⟨0, "yes", "Yes"⟩], shares := [0], payouts := none,
    stage := Stage.Open, trade_fee_bps := 1, fees_accrued := 0, accounts := [] }

/-- A finalized market with an empty balance map, used by the C10
witness. -/
def C10m : Market :=
  { collateral_decimals := 9, deposited_collateral := 100 * 10 ^ 9,
    minimum_deposit := 100 * 10 ^ 9, end_time := 10, resolution_time := 10,
    outcomes := [⟨0, "yes", "Yes"⟩, ⟨1, "no", "No"⟩], shares := [0, 0],
    payouts := some [9, 0], stage := Stage.Finalized Finalization.Resolved,
    trade_fee_bps := 1, fees_accrued := 0, accounts := [] }

/-- One successful exposed mutating operation applied to a market: the step
relation of the market state machine (a failed operation leaves no state,
see the modelling conventions). -/
inductive Step : Market → Market → Prop where
  | step_open (now : ℕ) (m m' : Market) : open_market now m = .ok m' → Step m m'
  | step_pause (m m' : Market) : pause m = .ok m' → Step m m'
  | step_deposit (m : Market) (amount : ℕ) (m' : Market) :
      deposit_collateral m amount = .ok m' → Step m m'
  | step_resolve (m : Market) (ps : List ℕ) (m' : Market) :
      resolve_market m ps = .ok m' → Step m m'
  | step_credit (now : ℕ) (m : Market) (a : String) (i ns : ℕ) (m' : Market) :
      credit now m a i ns = .ok m' → Step m m'
  | step_debit (now : ℕ) (m : Market) (a : String) (i ns : ℕ) (m' : Market) :
      debit now m a i ns = .ok m' → Step m m'
  | step_buy (now : ℕ) (m : Market) (s : String) (amt ns i bp : ℕ) (m' : Market) (ch : ℕ) :
      internal_buy now m s amt ns i bp = .ok (m', ch) → Step m m'
  | step_sell (now : ℕ) (m : Market) (s : String) (amt ns i bp : ℕ) (m' : Market) (pay : ℕ) :
      internal_sell now m s amt ns i bp = .ok (m', pay) → Step m m'
  | step_redeem (m : Market) (a : String) (m' : Market) (p : ℕ) :
      redeem m a = .ok (m', p) → Step m m'
  | step_withdraw (m m' : Market) (fees : ℕ) :
      withdraw_fees m = .ok (m', fees) → Step m m'

/-- The stage transitions allowed by the spec state machine (section 4.2):
stay put, Pending to Open, Paused to Open, Open to Paused, or Open or
Paused to Finalized. -/
def stageStep (s s' : Stage) : Prop :=
  s' = s ∨ (s = Stage.Pending ∧ s' = Stage.Open) ∨
  (s = Stage.Paused ∧ s' = Stage.Open) ∨
  (s = Stage.Open ∧ s' = Stage.Paused) ∨
  ((s = Stage.Open ∨ s = Stage.Paused) ∧ ∃ f, s' = Stage.Finalized f)

/-- An open one-outcome market, used by the C9 witness. -/
def C9m : Market :=
  { collateral_decimals := 9, deposited_collateral := 100 * 10 ^ 9,
    minimum_deposit := 100 * 10 ^ 9, end_time := 10, resolution_time := 10,
    outcomes := [⟨0, "yes", "Yes"⟩], shares := [0], payouts := none,
    stage := Stage.Open, trade_fee_bps := 1, fees_accrued := 0, accounts := [] }

/-- C9m once paused. -/
def C9p : Market := { C9m with stage := Stage.Paused }

/-- An open one-outcome market with fee rate 1 and a 5-share holding, used
by the C8 witness. -/
def C8w : Market :=
  { collateral_decimals := 9, deposited_collateral := 100 * 10 ^ 9,
    minimum_deposit := 100 * 10 ^ 9, end_time := 10, resolution_time := 10,
    outcomes := [⟨0, "yes", "Yes"⟩], shares := [(5 : ℤ)], payouts := none,
    stage := Stage.Open, trade_fee_bps := 1, fees_accrued := 0,
    accounts := [("carol", [5])] }

/-- C8w after carol buys 3 shares at base price 100. -/
def C8wbuy : Market :=
  { C8w with
      accounts := [("carol", [8])],
      shares := [(8 : ℤ)],
      fees_accrued := 1 }

/-- C8w after carol sells 5 shares at base price 100. -/
def C8wsell : Market :=
  { C8w with
      accounts := [("carol", [0])],
      shares := [(0 : ℤ)],
      fees_accrued := 1 }

/-
General lemmas.
-/

theorem getD_set_self {α : Type} (l : List α) (i : ℕ) (x d : α) (h : i < l.length) :
    (l.set i x).getD i d = x := by
  induction l generalizing i with
  | nil => simp at h
  | cons hd t ih =>
    cases i with
    | zero => simp [List.set, List.getD]
    | succ n =>
      simp only [List.set, List.getD_cons_succ]
      exact ih n (by simp only [List.length_cons] at h; omega)

theorem getD_set_ne {α : Type} (l : List α) (i j : ℕ) (x d : α) (h : j ≠ i) :
    (l.set i x).getD j d = l.getD j d := by
  induction l generalizing i j with
  | nil => simp [List.set]
  | cons hd t ih =>
    cases i with
    | zero =>
      cases j with
      | zero => exact absurd rfl h
      | succ n => simp [List.set, List.getD_cons_succ]
    | succ n =>
      cases j with
      | zero => simp [List.set]
      | succ k =>
        simp only [List.set, List.getD_cons_succ]
        exact ih n k (fun hc => h (by rw [hc]))

theorem getD_replicate_zero (n i : ℕ) : (List.replicate n (0 : ℕ)).getD i 0 = 0 := by
  induction n generalizing i with
  | zero => simp [List.getD]
  | succ k ih =>
    cases i with
    | zero => simp [List.replicate]
    | succ j => simp only [List.replicate, List.getD_cons_succ]; exact ih j

theorem sumBalances_insertAcc (a : String) (v : List ℕ) (acc : List (String × List ℕ)) (i : ℕ) :
    sumBalances (insertAcc a v acc) i +
      (match lookupAcc a acc with | some b => b.getD i 0 | none => 0)
      = sumBalances acc i + v.getD i 0 := by
  induction acc with
  | nil => simp [sumBalances, insertAcc, lookupAcc]
  | cons hd t ih =>
    by_cases hab : a = hd.1
    · simp [sumBalances, insertAcc, lookupAcc, hab, List.sum_cons]
      ring
    · simp only [sumBalances, insertAcc, lookupAcc, List.map_cons, List.sum_cons,
        if_neg hab] at ih ⊢
      cases hlk : lookupAcc a t with
      | none => simp only [hlk] at ih ⊢; omega
      | some b => simp only [hlk] at ih ⊢; omega

theorem credit_ok {now : ℕ} {m : Market} {a : String} {i ns : ℕ} {m' : Market}
    (h : credit now m a i ns = .ok m') :
    m.stage = Stage.Open ∧ now < m.end_time ∧
    i < (get_or_create_balances m a).length ∧
    (get_or_create_balances m a).getD i 0 + ns < U128LIMIT ∧
    i < m.shares.length ∧
    m' = { m with
            accounts := insertAcc a ((get_or_create_balances m a).set i
              ((get_or_create_balances m a).getD i 0 + ns)) m.accounts,
            shares := m.shares.set i (fAdd (m.shares.getD i 0) (natToF64 ns)) } := by
  unfold credit assert_trading_allowed u128add at h
  by_cases hs : m.stage = Stage.Open
  · rw [if_pos hs] at h
    by_cases ht : now < m.end_time
    · rw [if_pos ht] at h
      dsimp only [] at h
      by_cases hl : i < (get_or_create_balances m a).length
      · rw [if_pos hl] at h
        by_cases ho : (get_or_create_balances m a).getD i 0 + ns < U128LIMIT
        · rw [if_pos ho] at h
          dsimp only [] at h
          by_cases hsh : i < m.shares.length
          · rw [if_pos hsh] at h
            exact ⟨hs, ht, hl, ho, hsh, (Except.ok.inj h).symm⟩
          · rw [if_neg hsh] at h
            exact Except.noConfusion h
        · rw [if_neg ho] at h
          exact Except.noConfusion h
      · rw [if_neg hl] at h
        exact Except.noConfusion h
    · rw [if_neg ht] at h
      exact Except.noConfusion h
  · rw [if_neg hs] at h
    exact Except.noConfusion h

theorem debit_ok {now : ℕ} {m : Market} {a : String} {i ns : ℕ} {m' : Market}
    (h : debit now m a i ns = .ok m') :
    m.stage = Stage.Open ∧ now < m.end_time ∧
    i < (get_or_create_balances m a).length ∧
    ns ≤ (get_or_create_balances m a).getD i 0 ∧
    i < m.shares.length ∧
    m' = { m with
            accounts := insertAcc a ((get_or_create_balances m a).set i
              ((get_or_create_balances m a).getD i 0 - ns)) m.accounts,
            shares := m.shares.set i (fSub (m.shares.getD i 0) (natToF64 ns)) } := by
  unfold debit assert_trading_allowed at h
  by_cases hs : m.stage = Stage.Open
  · rw [if_pos hs] at h
    by_cases ht : now < m.end_time
    · rw [if_pos ht] at h
      dsimp only [] at h
      by_cases hl : i < (get_or_create_balances m a).length
      · rw [if_pos hl] at h
        by_cases hb : (get_or_create_balances m a).getD i 0 < ns
        · rw [if_pos hb] at h
          exact Except.noConfusion h
        · rw [if_neg hb] at h
          by_cases hsh : i < m.shares.length
          · rw [if_pos hsh] at h
            exact ⟨hs, ht, hl, Nat.le_of_not_lt hb, hsh, (Except.ok.inj h).symm⟩
          · rw [if_neg hsh] at h
            exact Except.noConfusion h
      · rw [if_neg hl] at h
        exact Except.noConfusion h
    · rw [if_neg ht] at h
      exact Except.noConfusion h
  · rw [if_neg hs] at h
    exact Except.noConfusion h

theorem deposit_fees_ok {m : Market} {x : ℕ} {m' : Market}
    (h : deposit_fees m x = .ok m') :
    m.fees_accrued + x < U128LIMIT ∧ m' = { m with fees_accrued := m.fees_accrued + x } := by
  unfold deposit_fees checked_add at h
  by_cases hf : m.fees_accrued + x < U128LIMIT
  · rw [if_pos hf] at h
    exact ⟨hf, (Except.ok.inj h).symm⟩
  · rw [if_neg hf] at h
    exact Except.noConfusion h

theorem calc_fee_eq (m : Market) (bp : ℕ) :
    calc_fee m bp = if bp / 100 * m.trade_fee_bps < U128LIMIT
      then .ok (bp / 100 * m.trade_fee_bps) else .error .ArithmeticOverflow := by
  unfold calc_fee checked_div checked_mul
  norm_num

theorem assert_trading_allowed_of_not_open {now : ℕ} {m : Market}
    (h : ¬ (m.stage = Stage.Open ∧ now < m.end_time)) :
    assert_trading_allowed now m = .error .StageError := by
  unfold assert_trading_allowed
  by_cases hs : m.stage = Stage.Open
  · rw [if_pos hs]
    by_cases ht : now < m.end_time
    · exact absurd ⟨hs, ht⟩ h
    · rw [if_neg ht]
  · rw [if_neg hs]

theorem internal_buy_ok {now : ℕ} {m : Market} {s : String} {amt ns i bp : ℕ}
    {m' : Market} {ch : ℕ}
    (h : internal_buy now m s amt ns i bp = .ok (m', ch)) :
    ∃ m1, i < m.outcomes.length ∧
      bp / 100 * m.trade_fee_bps < U128LIMIT ∧
      bp + bp / 100 * m.trade_fee_bps < U128LIMIT ∧
      bp + bp / 100 * m.trade_fee_bps ≤ amt ∧
      credit now m s i ns = .ok m1 ∧
      deposit_fees m1 (bp / 100 * m.trade_fee_bps) = .ok m' ∧
      ch = amt - (bp + bp / 100 * m.trade_fee_bps) := by
  unfold internal_buy at h
  by_cases hta : m.stage = Stage.Open ∧ now < m.end_time
  · rw [show assert_trading_allowed now m = .ok () by
      unfold assert_trading_allowed; rw [if_pos hta.1, if_pos hta.2]] at h
    dsimp only [] at h
    by_cases hi : i < m.outcomes.length
    · rw [if_pos hi, calc_fee_eq] at h
      by_cases hfee : bp / 100 * m.trade_fee_bps < U128LIMIT
      · rw [if_pos hfee] at h
        dsimp only [] at h
        unfold checked_add at h
        by_cases hcost : bp + bp / 100 * m.trade_fee_bps < U128LIMIT
        · rw [if_pos hcost] at h
          dsimp only [] at h
          by_cases hamt : amt < bp + bp / 100 * m.trade_fee_bps
          · rw [if_pos hamt] at h
            exact Except.noConfusion h
          · rw [if_neg hamt] at h
            cases hcr : credit now m s i ns with
            | error e => rw [hcr] at h; exact Except.noConfusion h
            | ok m1 =>
              rw [hcr] at h
              dsimp only [] at h
              cases hdf : deposit_fees m1 (bp / 100 * m.trade_fee_bps) with
              | error e => rw [hdf] at h; exact Except.noConfusion h
              | ok m2 =>
                rw [hdf] at h
                have h2 := Except.ok.inj h
                injection h2 with hm hc
                refine ⟨m1, hi, hfee, hcost, Nat.le_of_not_lt hamt, ?_, ?_, ?_⟩
                · exact rfl
                · exact hm ▸ hdf
                · exact hc.symm
        · rw [if_neg hcost] at h
          exact Except.noConfusion h
      · rw [if_neg hfee] at h
        exact Except.noConfusion h
    · rw [if_neg hi] at h
      exact Except.noConfusion h
  · rw [assert_trading_allowed_of_not_open hta] at h
    exact Except.noConfusion h

theorem internal_sell_ok {now : ℕ} {m : Market} {s : String} {amt ns i bp : ℕ}
    {m' : Market} {pay : ℕ}
    (h : internal_sell now m s amt ns i bp = .ok (m', pay)) :
    ∃ m1, i < m.outcomes.length ∧
      bp / 100 * m.trade_fee_bps < U128LIMIT ∧
      bp / 100 * m.trade_fee_bps ≤ bp ∧
      amt ≤ bp - bp / 100 * m.trade_fee_bps ∧
      debit now m s i ns = .ok m1 ∧
      deposit_fees m1 (bp / 100 * m.trade_fee_bps) = .ok m' ∧
      pay = bp - bp / 100 * m.trade_fee_bps := by
  unfold internal_sell at h
  by_cases hta : m.stage = Stage.Open ∧ now < m.end_time
  · rw [show assert_trading_allowed now m = .ok () by
      unfold assert_trading_allowed; rw [if_pos hta.1, if_pos hta.2]] at h
    dsimp only [] at h
    by_cases hi : i < m.outcomes.length
    · rw [if_pos hi, calc_fee_eq] at h
      by_cases hfee : bp / 100 * m.trade_fee_bps < U128LIMIT
      · rw [if_pos hfee] at h
        dsimp only [] at h
        unfold checked_sub at h
        by_cases hle : bp / 100 * m.trade_fee_bps ≤ bp
        · rw [if_pos hle] at h
          dsimp only [] at h
          by_cases hsl : bp - bp / 100 * m.trade_fee_bps < amt
          · rw [if_pos hsl] at h
            exact Except.noConfusion h
          · rw [if_neg hsl] at h
            cases hdb : debit now m s i ns with
            | error e => rw [hdb] at h; exact Except.noConfusion h
            | ok m1 =>
              rw [hdb] at h
              dsimp only [] at h
              cases hdf : deposit_fees m1 (bp / 100 * m.trade_fee_bps) with
              | error e => rw [hdf] at h; exact Except.noConfusion h
              | ok m2 =>
                rw [hdf] at h
                have h2 := Except.ok.inj h
                injection h2 with hm hc
                refine ⟨m1, hi, hfee, hle, Nat.le_of_not_lt hsl, ?_, ?_, ?_⟩
                · exact rfl
                · exact hm ▸ hdf
                · exact hc.symm
        · rw [if_neg hle] at h
          exact Except.noConfusion h
      · rw [if_neg hfee] at h
        exact Except.noConfusion h
    · rw [if_neg hi] at h
      exact Except.noConfusion h
  · rw [assert_trading_allowed_of_not_open hta] at h
    exact Except.noConfusion h

theorem fAdd_exact {a : ℤ} {n : ℕ} (h1 : natToF64 n = (n : ℤ))
    (h2 : roundF64 (a + (n : ℤ)) = a + (n : ℤ)) : fAdd a (natToF64 n) = a + (n : ℤ) := by
  rw [h1, fAdd, h2]

theorem fSub_exact {a : ℤ} {n : ℕ} (h1 : natToF64 n = (n : ℤ))
    (h2 : roundF64 (a - (n : ℤ)) = a - (n : ℤ)) : fSub a (natToF64 n) = a - (n : ℤ) := by
  rw [h1, fSub, h2]

theorem get_or_create_getD (m : Market) (a : String) (i : ℕ) :
    (get_or_create_balances m a).getD i 0 =
      (match lookupAcc a m.accounts with | some b => b.getD i 0 | none => 0) := by
  unfold get_or_create_balances
  cases lookupAcc a m.accounts with
  | none => simp [getD_replicate_zero]
  | some b => simp

theorem sumBalances_insert_getD (m : Market) (a : String) (v : List ℕ) (i : ℕ) :
    sumBalances (insertAcc a v m.accounts) i + (get_or_create_balances m a).getD i 0
      = sumBalances m.accounts i + v.getD i 0 := by
  rw [get_or_create_getD]
  exact sumBalances_insertAcc a v m.accounts i

theorem ledgerInv_credit {now : ℕ} {m : Market} {a : String} {i ns : ℕ} {m' : Market}
    (hInv : LedgerInv m)
    (h1 : natToF64 ns = (ns : ℤ))
    (h2 : roundF64 (m.shares.getD i 0 + (ns : ℤ)) = m.shares.getD i 0 + (ns : ℤ))
    (h : credit now m a i ns = .ok m') : LedgerInv m' := by
  obtain ⟨_, _, hl, _, hsh, hm⟩ := credit_ok h
  subst hm
  intro j hj
  simp only [] at hj ⊢
  have hsum := sumBalances_insert_getD m a
    ((get_or_create_balances m a).set i ((get_or_create_balances m a).getD i 0 + ns)) j
  by_cases hji : j = i
  · subst hji
    rw [getD_set_self _ _ _ _ hsh, fAdd_exact h1 h2]
    rw [getD_set_self _ _ _ _ hl] at hsum
    rw [hInv j hj]
    omega
  · rw [getD_set_ne _ _ _ _ _ hji]
    rw [getD_set_ne _ _ _ _ _ hji] at hsum
    rw [hInv j hj]
    omega

theorem ledgerInv_debit {now : ℕ} {m : Market} {a : String} {i ns : ℕ} {m' : Market}
    (hInv : LedgerInv m)
    (h1 : natToF64 ns = (ns : ℤ))
    (h2 : roundF64 (m.shares.getD i 0 - (ns : ℤ)) = m.shares.getD i 0 - (ns : ℤ))
    (h : debit now m a i ns = .ok m') : LedgerInv m' := by
  obtain ⟨_, _, hl, hb, hsh, hm⟩ := debit_ok h
  subst hm
  intro j hj
  simp only [] at hj ⊢
  have hsum := sumBalances_insert_getD m a
    ((get_or_create_balances m a).set i ((get_or_create_balances m a).getD i 0 - ns)) j
  by_cases hji : j = i
  · subst hji
    rw [getD_set_self _ _ _ _ hsh, fSub_exact h1 h2]
    rw [getD_set_self _ _ _ _ hl] at hsum
    rw [hInv j hj]
    omega
  · rw [getD_set_ne _ _ _ _ _ hji]
    rw [getD_set_ne _ _ _ _ _ hji] at hsum
    rw [hInv j hj]
    omega

theorem ledgerInv_deposit_fees {m m' : Market} {x : ℕ}
    (hInv : LedgerInv m) (h : deposit_fees m x = .ok m') : LedgerInv m' := by
  obtain ⟨_, hm⟩ := deposit_fees_ok h
  subst hm
  exact hInv

theorem redeem_ok {m : Market} {a : String} {m' : Market} {p : ℕ}
    (h : redeem m a = .ok (m', p)) : m' = m ∧ 0 < p := by
  unfold redeem assert_finalized at h
  cases hst : m.stage with
  | Pending => rw [hst] at h; exact Except.noConfusion h
  | Open => rw [hst] at h; exact Except.noConfusion h
  | Paused => rw [hst] at h; exact Except.noConfusion h
  | Finalized f =>
    rw [hst] at h
    dsimp only [] at h
    cases hlk : lookupAcc a m.accounts with
    | none => rw [hlk] at h; exact Except.noConfusion h
    | some balances =>
      rw [hlk] at h
      dsimp only [] at h
      cases hp : m.payouts with
      | none =>
        rw [hp] at h
        dsimp only [] at h
        rw [if_pos rfl] at h
        exact Except.noConfusion h
      | some ps =>
        rw [hp] at h
        dsimp only [] at h
        cases hsp : sum_products balances ps with
        | error e => rw [hsp] at h; exact Except.noConfusion h
        | ok payout =>
          rw [hsp] at h
          dsimp only [] at h
          by_cases hz : payout = 0
          · rw [if_pos hz] at h
            exact Except.noConfusion h
          · rw [if_neg hz] at h
            have h2 := Except.ok.inj h
            injection h2 with hm hc
            exact ⟨hm.symm, hc ▸ Nat.pos_of_ne_zero hz⟩

theorem assert_trading_allowed_ok {now : ℕ} {m : Market}
    (hs : m.stage = Stage.Open) (ht : now < m.end_time) :
    assert_trading_allowed now m = .ok () := by
  unfold assert_trading_allowed
  rw [if_pos hs, if_pos ht]

theorem credit_eval {now : ℕ} {m : Market} {a : String} {i ns : ℕ}
    (hs : m.stage = Stage.Open) (ht : now < m.end_time)
    (hl : i < (get_or_create_balances m a).length)
    (ho : (get_or_create_balances m a).getD i 0 + ns < U128LIMIT)
    (hsh : i < m.shares.length) :
    credit now m a i ns = .ok { m with
      accounts := insertAcc a ((get_or_create_balances m a).set i
        ((get_or_create_balances m a).getD i 0 + ns)) m.accounts,
      shares := m.shares.set i (fAdd (m.shares.getD i 0) (natToF64 ns)) } := by
  unfold credit u128add
  rw [assert_trading_allowed_ok hs ht]
  dsimp only []
  rw [if_pos hl, if_pos ho]
  dsimp only []
  rw [if_pos hsh]

theorem debit_eval {now : ℕ} {m : Market} {a : String} {i ns : ℕ}
    (hs : m.stage = Stage.Open) (ht : now < m.end_time)
    (hl : i < (get_or_create_balances m a).length)
    (hb : ns ≤ (get_or_create_balances m a).getD i 0)
    (hsh : i < m.shares.length) :
    debit now m a i ns = .ok { m with
      accounts := insertAcc a ((get_or_create_balances m a).set i
        ((get_or_create_balances m a).getD i 0 - ns)) m.accounts,
      shares := m.shares.set i (fSub (m.shares.getD i 0) (natToF64 ns)) } := by
  unfold debit
  rw [assert_trading_allowed_ok hs ht]
  dsimp only []
  rw [if_pos hl, if_neg (Nat.not_lt.mpr hb), if_pos hsh]

theorem deposit_fees_eval {m : Market} {x : ℕ} (hf : m.fees_accrued + x < U128LIMIT) :
    deposit_fees m x = .ok { m with fees_accrued := m.fees_accrued + x } := by
  unfold deposit_fees checked_add
  rw [if_pos hf]

/-- C2 counterexample: the ledger/aggregate equality is not preserved
exactly by credit.  The reachable market C2open (obtained by opening
C2pending) satisfies the invariant, yet crediting 2^53 + 1 shares yields a
state whose u128 balance sum is 2^53 + 1 while the f64 aggregate was raised
by only 2^53 (the cast of 2^53 + 1 to binary64 rounds to 2^53). -/
theorem C2_counterexample :
    open_market 0 C2pending = .ok C2open ∧ LedgerInv C2open ∧
    credit 0 C2open "alice" 0 (2 ^ 53 + 1) = .ok C2after ∧ ¬ LedgerInv C2after :=
  ⟨by decide, by decide, by decide, by decide⟩

/-- C2 (amended): for every market satisfying the ledger/aggregate
consistency invariant, each mutating operation - credit, debit, buy, sell,
redeem - preserves it, provided the credited or debited quantity and the
updated aggregate entry are exactly representable in IEEE-754 binary64 (the
two rounding hypotheses); redeem preserves it unconditionally since it does
not touch balances.  In general the aggregate is the binary64-rounded
accumulation, which is exact below 2^53. -/
theorem C2_ledger_consistency :
    ∀ m : Market, LedgerInv m →
      (∀ now a i ns m', natToF64 ns = (ns : ℤ) →
        roundF64 (m.shares.getD i 0 + (ns : ℤ)) = m.shares.getD i 0 + (ns : ℤ) →
        credit now m a i ns = .ok m' → LedgerInv m') ∧
      (∀ now a i ns m', natToF64 ns = (ns : ℤ) →
        roundF64 (m.shares.getD i 0 - (ns : ℤ)) = m.shares.getD i 0 - (ns : ℤ) →
        debit now m a i ns = .ok m' → LedgerInv m') ∧
      (∀ now s amt ns i bp m' ch, natToF64 ns = (ns : ℤ) →
        roundF64 (m.shares.getD i 0 + (ns : ℤ)) = m.shares.getD i 0 + (ns : ℤ) →
        internal_buy now m s amt ns i bp = .ok (m', ch) → LedgerInv m') ∧
      (∀ now s amt ns i bp m' pay, natToF64 ns = (ns : ℤ) →
        roundF64 (m.shares.getD i 0 - (ns : ℤ)) = m.shares.getD i 0 - (ns : ℤ) →
        internal_sell now m s amt ns i bp = .ok (m', pay) → LedgerInv m') ∧
      (∀ a m' p, redeem m a = .ok (m', p) → LedgerInv m') := by
  intro m hInv
  refine ⟨?_, ?_, ?_, ?_, ?_⟩
  · intro now a i ns m' h1 h2 h
    exact ledgerInv_credit hInv h1 h2 h
  · intro now a i ns m' h1 h2 h
    exact ledgerInv_debit hInv h1 h2 h
  · intro now s amt ns i bp m' ch h1 h2 h
    obtain ⟨m1, _, _, _, _, hcr, hdf, _⟩ := internal_buy_ok h
    exact ledgerInv_deposit_fees (ledgerInv_credit hInv h1 h2 hcr) hdf
  · intro now s amt ns i bp m' pay h1 h2 h
    obtain ⟨m1, _, _, _, _, hdb, hdf, _⟩ := internal_sell_ok h
    exact ledgerInv_deposit_fees (ledgerInv_debit hInv h1 h2 hdb) hdf
  · intro a m' p h
    obtain ⟨hm, _⟩ := redeem_ok h
    exact hm ▸ hInv

/-- C2 witness: crediting 5 shares on the concrete open market preserves
the invariant, by the amended theorem. -/
theorem C2_ledger_consistency_witness : LedgerInv C2wafter :=
  (C2_ledger_consistency C2open (by decide)).1 0 "alice" 0 5 C2wafter
    (by decide) (by decide) (by decide)

/-- C3 counterexample: a successful buy of 2^53 + 1 shares credits the full
amount to the buyer balance and returns the right change, but raises the
f64 outstanding-shares aggregate by only 2^53, not by num_shares. -/
theorem C3_counterexample :
    internal_buy 0 C3m "bob" 5 (2 ^ 53 + 1) 0 0 = .ok (C3after, 5) ∧
    C3after.shares.getD 0 0 ≠ C3m.shares.getD 0 0 + ((2 ^ 53 + 1 : ℕ) : ℤ) :=
  ⟨by decide, by decide⟩

/-- C3 (amended): for every market in the Open stage before end_time with a
valid outcome index (and the u128 fits and binary64 representability side
conditions): if payment < cost with cost = base_price + fee then buy fails
with InsufficientPayment and, the transaction aborting, leaves no mutation
(reject-outright, never partial-fill); otherwise buy credits num_shares to
the buyer balance, increments the aggregate by the binary64 rounding of
num_shares (exactly num_shares under the representability hypotheses), adds
fee to fees_accrued, and returns change = payment - cost. -/
theorem C3_buy_execution :
    ∀ (now : ℕ) (m : Market) (sender : String) (payment ns i bp : ℕ),
      m.stage = Stage.Open → now < m.end_time → i < m.outcomes.length →
      i < (get_or_create_balances m sender).length → i < m.shares.length →
      bp + bp / 100 * m.trade_fee_bps < U128LIMIT →
      (get_or_create_balances m sender).getD i 0 + ns < U128LIMIT →
      m.fees_accrued + bp / 100 * m.trade_fee_bps < U128LIMIT →
      natToF64 ns = (ns : ℤ) →
      roundF64 (m.shares.getD i 0 + (ns : ℤ)) = m.shares.getD i 0 + (ns : ℤ) →
      (payment < bp + bp / 100 * m.trade_fee_bps →
        internal_buy now m sender payment ns i bp = .error .InsufficientPayment) ∧
      (bp + bp / 100 * m.trade_fee_bps ≤ payment →
        internal_buy now m sender payment ns i bp = .ok
          ({ m with
              accounts := insertAcc sender ((get_or_create_balances m sender).set i
                ((get_or_create_balances m sender).getD i 0 + ns)) m.accounts,
              shares := m.shares.set i (m.shares.getD i 0 + (ns : ℤ)),
              fees_accrued := m.fees_accrued + bp / 100 * m.trade_fee_bps },
            payment - (bp + bp / 100 * m.trade_fee_bps))) := by
  intro now m sender payment ns i bp hs ht hi hl hsh hcost hbal hfees h1 h2
  have hfee : bp / 100 * m.trade_fee_bps < U128LIMIT := by
    unfold U128LIMIT at hcost ⊢
    omega
  constructor
  · intro hpay
    unfold internal_buy
    rw [assert_trading_allowed_ok hs ht]
    dsimp only []
    rw [if_pos hi, calc_fee_eq, if_pos hfee]
    dsimp only []
    unfold checked_add
    rw [if_pos hcost]
    dsimp only []
    rw [if_pos hpay]
  · intro hge
    unfold internal_buy
    rw [assert_trading_allowed_ok hs ht]
    dsimp only []
    rw [if_pos hi, calc_fee_eq, if_pos hfee]
    dsimp only []
    unfold checked_add
    rw [if_pos hcost]
    dsimp only []
    rw [if_neg (Nat.not_lt.mpr hge), credit_eval hs ht hl hbal hsh]
    dsimp only []
    unfold deposit_fees checked_add
    dsimp only []
    rw [if_pos hfees]
    rw [fAdd_exact h1 h2]

/-- C3 witness: a concrete successful buy of 3 shares at base price 100 and
fee rate 1 on the market C3w, by the amended theorem. -/
theorem C3_buy_execution_witness :
    internal_buy 0 C3w "bob" 150 3 0 100 = .ok
      ({ C3w with
          accounts := insertAcc "bob" ((get_or_create_balances C3w "bob").set 0
            ((get_or_create_balances C3w "bob").getD 0 0 + 3)) C3w.accounts,
          shares := C3w.shares.set 0 (C3w.shares.getD 0 0 + (3 : ℤ)),
          fees_accrued := C3w.fees_accrued + 100 / 100 * C3w.trade_fee_bps },
        150 - (100 + 100 / 100 * C3w.trade_fee_bps)) :=
  (C3_buy_execution 0 C3w "bob" 150 3 0 100 (by decide) (by decide) (by decide)
    (by decide) (by decide) (by decide) (by decide) (by decide) (by decide)
    (by decide)).2 (by decide)

/-- C4 counterexample: a successful sell of 2^53 + 1 shares debits the full
amount from the seller balance, but lowers the f64 outstanding-shares
aggregate by only 2^53, not by num_shares (the starting state satisfies the
ledger invariant). -/
theorem C4_counterexample :
    LedgerInv C4m ∧
    internal_sell 0 C4m "carol" 0 (2 ^ 53 + 1) 0 0 = .ok (C4after, 0) ∧
    C4after.shares.getD 0 0 ≠ C4m.shares.getD 0 0 - ((2 ^ 53 + 1 : ℕ) : ℤ) :=
  ⟨by decide, by decide, by decide⟩

/-- C4 (amended): for every market in the Open stage before end_time with a
valid outcome index (and the fee fitting, fee at most base_price, and
binary64 representability side conditions): sell computes
sell_amount = base_price - fee and fails with SlippageExceeded when
sell_amount < min_acceptable with no mutation; otherwise it debits
num_shares from the seller balance (failing with InsufficientBalance and no
mutation when the holding is smaller), lowers the aggregate by the binary64
rounding of num_shares (exactly num_shares under the representability
hypotheses), adds fee to fees_accrued, and requests payment of sell_amount
to the seller. -/
theorem C4_sell_execution :
    ∀ (now : ℕ) (m : Market) (sender : String) (min_acceptable ns i bp : ℕ),
      m.stage = Stage.Open → now < m.end_time → i < m.outcomes.length →
      i < (get_or_create_balances m sender).length → i < m.shares.length →
      bp / 100 * m.trade_fee_bps < U128LIMIT →
      bp / 100 * m.trade_fee_bps ≤ bp →
      m.fees_accrued + bp / 100 * m.trade_fee_bps < U128LIMIT →
      natToF64 ns = (ns : ℤ) →
      roundF64 (m.shares.getD i 0 - (ns : ℤ)) = m.shares.getD i 0 - (ns : ℤ) →
      (bp - bp / 100 * m.trade_fee_bps < min_acceptable →
        internal_sell now m sender min_acceptable ns i bp = .error .SlippageExceeded) ∧
      (min_acceptable ≤ bp - bp / 100 * m.trade_fee_bps →
        (get_or_create_balances m sender).getD i 0 < ns →
        internal_sell now m sender min_acceptable ns i bp = .error .InsufficientBalance) ∧
      (min_acceptable ≤ bp - bp / 100 * m.trade_fee_bps →
        ns ≤ (get_or_create_balances m sender).getD i 0 →
        internal_sell now m sender min_acceptable ns i bp = .ok
          ({ m with
              accounts := insertAcc sender ((get_or_create_balances m sender).set i
                ((get_or_create_balances m sender).getD i 0 - ns)) m.accounts,
              shares := m.shares.set i (m.shares.getD i 0 - (ns : ℤ)),
              fees_accrued := m.fees_accrued + bp / 100 * m.trade_fee_bps },
            bp - bp / 100 * m.trade_fee_bps)) := by
  intro now m sender min_acceptable ns i bp hs ht hi hl hsh hfee hle hfees h1 h2
  refine ⟨?_, ?_, ?_⟩
  · intro hsl
    unfold internal_sell
    rw [assert_trading_allowed_ok hs ht]
    dsimp only []
    rw [if_pos hi, calc_fee_eq, if_pos hfee]
    dsimp only []
    unfold checked_sub
    rw [if_pos hle]
    dsimp only []
    rw [if_pos hsl]
  · intro hok hshort
    unfold internal_sell
    rw [assert_trading_allowed_ok hs ht]
    dsimp only []
    rw [if_pos hi, calc_fee_eq, if_pos hfee]
    dsimp only []
    unfold checked_sub
    rw [if_pos hle]
    dsimp only []
    rw [if_neg (Nat.not_lt.mpr hok)]
    unfold debit
    rw [assert_trading_allowed_ok hs ht]
    dsimp only []
    rw [if_pos hl, if_pos hshort]
  · intro hok hbal
    unfold internal_sell
    rw [assert_trading_allowed_ok hs ht]
    dsimp only []
    rw [if_pos hi, calc_fee_eq, if_pos hfee]
    dsimp only []
    unfold checked_sub
    rw [if_pos hle]
    dsimp only []
    rw [if_neg (Nat.not_lt.mpr hok), debit_eval hs ht hl hbal hsh]
    dsimp only []
    unfold deposit_fees checked_add
    dsimp only []
    rw [if_pos hfees]
    rw [fSub_exact h1 h2]

/-- C4 witness: a concrete successful sell of 7 shares at base price 100
and fee rate 1 on the market C4w, by the amended theorem. -/
theorem C4_sell_execution_witness :
    internal_sell 0 C4w "carol" 50 7 0 100 = .ok
      ({ C4w with
          accounts := insertAcc "carol" ((get_or_create_balances C4w "carol").set 0
            ((get_or_create_balances C4w "carol").getD 0 0 - 7)) C4w.accounts,
          shares := C4w.shares.set 0 (C4w.shares.getD 0 0 - (7 : ℤ)),
          fees_accrued := C4w.fees_accrued + 100 / 100 * C4w.trade_fee_bps },
        100 - 100 / 100 * C4w.trade_fee_bps) :=
  ((C4_sell_execution 0 C4w "carol" 50 7 0 100 (by decide) (by decide) (by decide)
    (by decide) (by decide) (by decide) (by decide) (by decide) (by decide)
    (by decide)).2.2) (by decide) (by decide)

theorem sum_products_aux_spec :
    ∀ (l : List (ℕ × ℕ)) (acc : ℕ), acc < U128LIMIT →
      (acc + (l.map (fun q => q.1 * q.2)).sum < U128LIMIT →
        sum_products_aux acc l = .ok (acc + (l.map (fun q => q.1 * q.2)).sum)) ∧
      (U128LIMIT ≤ acc + (l.map (fun q => q.1 * q.2)).sum →
        sum_products_aux acc l = .error .ArithmeticOverflow) := by
  intro l
  induction l with
  | nil =>
    intro acc hacc
    refine ⟨fun _ => by simp [sum_products_aux], fun hle => ?_⟩
    simp only [List.map_nil, List.sum_nil, Nat.add_zero] at hle
    omega
  | cons q t ih =>
    intro acc hacc
    obtain ⟨b, p⟩ := q
    simp only [List.map_cons, List.sum_cons]
    constructor
    · intro hfit
      have hbp : b * p < U128LIMIT := by omega
      have hstep : acc + b * p < U128LIMIT := by omega
      unfold sum_products_aux
      rw [if_pos hbp, if_pos hstep]
      have := (ih (acc + b * p) hstep).1 (by omega)
      rw [this]
      congr 1
      omega
    · intro hle
      unfold sum_products_aux
      by_cases hbp : b * p < U128LIMIT
      · rw [if_pos hbp]
        by_cases hstep : acc + b * p < U128LIMIT
        · rw [if_pos hstep]
          have := (ih (acc + b * p) hstep).2 (by omega)
          rw [this]
        · rw [if_neg hstep]
      · rw [if_neg hbp]

theorem sum_products_spec (bs ps : List ℕ) :
    (((bs.zip ps).map (fun q => q.1 * q.2)).sum < U128LIMIT →
      sum_products bs ps = .ok (((bs.zip ps).map (fun q => q.1 * q.2)).sum)) ∧
    (U128LIMIT ≤ ((bs.zip ps).map (fun q => q.1 * q.2)).sum →
      sum_products bs ps = .error .ArithmeticOverflow) := by
  have h := sum_products_aux_spec (bs.zip ps) 0 (by unfold U128LIMIT; positivity)
  unfold sum_products
  constructor
  · intro hfit
    have := h.1 (by omega)
    rw [this]
    congr 1
    omega
  · intro hle
    exact h.2 (by omega)

/-- C5: for every market finalized as Resolved with stored weight vector W
and every account holding balance vector bal (of matching effective
length), redeem computes the payout as the exact integer sum of
bal i * W i (each product overflow-checked, the representable sum assumed
to fit in u128), fails with ZeroPayout exactly when that sum is zero, and
otherwise requests a transfer of exactly the sum while leaving the market
state - in particular the balances - unchanged; redeem in any non-Finalized
stage fails with NotFinalized and no effect. -/
theorem C5_redeem_exact :
    (∀ (m : Market) (a : String) (W bal : List ℕ),
      m.stage = Stage.Finalized Finalization.Resolved →
      m.payouts = some W →
      lookupAcc a m.accounts = some bal →
      ((bal.zip W).map (fun q => q.1 * q.2)).sum < U128LIMIT →
      (((bal.zip W).map (fun q => q.1 * q.2)).sum = 0 →
        redeem m a = .error .ZeroPayout) ∧
      (0 < ((bal.zip W).map (fun q => q.1 * q.2)).sum →
        redeem m a = .ok (m, ((bal.zip W).map (fun q => q.1 * q.2)).sum))) ∧
    (∀ (m : Market) (a : String), (∀ f, m.stage ≠ Stage.Finalized f) →
      redeem m a = .error .NotFinalized) := by
  constructor
  · intro m a W bal hst hp hlk hfit
    unfold redeem assert_finalized
    rw [hst]
    dsimp only []
    rw [hlk]
    dsimp only []
    rw [hp]
    dsimp only []
    rw [(sum_products_spec bal W).1 hfit]
    dsimp only []
    constructor
    · intro hz
      rw [if_pos hz]
    · intro hpos
      rw [if_neg (Nat.pos_iff_ne_zero.mp hpos)]
  · intro m a hnf
    unfold redeem assert_finalized
    cases hst : m.stage with
    | Pending => rfl
    | Open => rfl
    | Paused => rfl
    | Finalized f => exact absurd hst (hnf f)

/-- C5 witness: on a concrete resolved market, erin with balances [3, 5]
and weights [6*10^8, 4*10^8] redeems exactly 38*10^8, with the market
unchanged. -/
theorem C5_redeem_exact_witness :
    redeem C5m "erin" = .ok (C5m, 3800000000) :=
  (C5_redeem_exact.1 C5m "erin" [600000000, 400000000] [3, 5]
    (by decide) (by decide) (by decide) (by decide)).2 (by decide)

/-- C1: the source contradicts the claim and its own TODO comment.  For the
market C1m with collateral_decimals = 9 in the Open stage and a payout
vector of matching length, resolve_market rejects the sum 10^9 that the
spec says must finalize the market as Resolved, because the guard written
in lib.rs compares the payout sum against collateral_decimals itself; a
payout vector summing to 9 is what actually resolves the market. -/
theorem C1_resolve_guard :
    resolve_market C1m [500000000, 500000000] = .error .InvalidPayoutVector ∧
    resolve_market C1m [4, 5] =
      .ok { C1m with payouts := some [4, 5], stage := Stage.Finalized Finalization.Resolved } :=
  ⟨by decide, by decide⟩

/-- C6: every fixed-point operation in the fee and payout math is
overflow-checked and aborts with ArithmeticOverflow instead of wrapping:
the fee computation returns the exact value or aborts, the buy cost
base_price + fee aborts when the exact sum does not fit in u128, the sell
proceeds base_price - fee abort when the fee exceeds the base price, and
the redeem payout summation returns the exact sum of products whenever it
returns at all and aborts when the exact sum reaches 2^128. -/
theorem C6_overflow_checked :
    (∀ (m : Market) (bp : ℕ),
      (bp / 100 * m.trade_fee_bps < U128LIMIT →
        calc_fee m bp = .ok (bp / 100 * m.trade_fee_bps)) ∧
      (U128LIMIT ≤ bp / 100 * m.trade_fee_bps →
        calc_fee m bp = .error .ArithmeticOverflow)) ∧
    (∀ (now : ℕ) (m : Market) (s : String) (amt ns i bp : ℕ),
      m.stage = Stage.Open → now < m.end_time → i < m.outcomes.length →
      bp / 100 * m.trade_fee_bps < U128LIMIT →
      U128LIMIT ≤ bp + bp / 100 * m.trade_fee_bps →
      internal_buy now m s amt ns i bp = .error .ArithmeticOverflow) ∧
    (∀ (now : ℕ) (m : Market) (s : String) (amt ns i bp : ℕ),
      m.stage = Stage.Open → now < m.end_time → i < m.outcomes.length →
      bp / 100 * m.trade_fee_bps < U128LIMIT →
      bp < bp / 100 * m.trade_fee_bps →
      internal_sell now m s amt ns i bp = .error .ArithmeticOverflow) ∧
    (∀ (bs ps : List ℕ) (v : ℕ),
      sum_products bs ps = .ok v → v = ((bs.zip ps).map (fun q => q.1 * q.2)).sum) ∧
    (∀ bs ps : List ℕ, U128LIMIT ≤ ((bs.zip ps).map (fun q => q.1 * q.2)).sum →
      sum_products bs ps = .error .ArithmeticOverflow) := by
  refine ⟨?_, ?_, ?_, ?_, ?_⟩
  · intro m bp
    rw [calc_fee_eq]
    constructor
    · intro hfit
      rw [if_pos hfit]
    · intro hle
      rw [if_neg (Nat.not_lt.mpr hle)]
  · intro now m s amt ns i bp hs ht hi hfee hcost
    unfold internal_buy
    rw [assert_trading_allowed_ok hs ht]
    dsimp only []
    rw [if_pos hi, calc_fee_eq, if_pos hfee]
    dsimp only []
    unfold checked_add
    rw [if_neg (Nat.not_lt.mpr hcost)]
  · intro now m s amt ns i bp hs ht hi hfee hlt
    unfold internal_sell
    rw [assert_trading_allowed_ok hs ht]
    dsimp only []
    rw [if_pos hi, calc_fee_eq, if_pos hfee]
    dsimp only []
    unfold checked_sub
    rw [if_neg (Nat.not_le.mpr hlt)]
  · intro bs ps v h
    by_cases hfit : ((bs.zip ps).map (fun q => q.1 * q.2)).sum < U128LIMIT
    · rw [(sum_products_spec bs ps).1 hfit] at h
      exact (Except.ok.inj h).symm
    · rw [(sum_products_spec bs ps).2 (Nat.not_lt.mp hfit)] at h
      exact Except.noConfusion h
  · intro bs ps hle
    exact (sum_products_spec bs ps).2 hle

/-- C6 witness: the concrete fee of base price 1000 at rate 1 is exactly
10, and a payout summation whose exact value exceeds 2^128 aborts. -/
theorem C6_overflow_checked_witness :
    calc_fee C6w 1000 = .ok 10 ∧
    sum_products [6, 6] [50000000000000000000000000000000000000, 50000000000000000000000000000000000000] =
      .error .ArithmeticOverflow :=
  ⟨(C6_overflow_checked.1 C6w 1000).1 (by decide),
   C6_overflow_checked.2.2.2.2 [6, 6]
     [50000000000000000000000000000000000000, 50000000000000000000000000000000000000]
     (by decide)⟩

/-- C10: for every Finalized market and every account with no balance
record, redeem aborts with the no-such-account panic - not ZeroPayout -
before computing any payout, and no transfer is requested (the result is an
error, not a transfer-carrying success). -/
theorem C10_redeem_no_account :
    ∀ (m : Market) (a : String) (f : Finalization),
      m.stage = Stage.Finalized f → lookupAcc a m.accounts = none →
      redeem m a = .error .NoSuchAccount := by
  intro m a f hst hlk
  unfold redeem assert_finalized
  rw [hst]
  dsimp only []
  rw [hlk]

/-- C10 witness: redeeming an unknown account on the concrete finalized
market C10m fails with NoSuchAccount. -/
theorem C10_redeem_no_account_witness :
    redeem C10m "mallory" = .error .NoSuchAccount :=
  C10_redeem_no_account C10m "mallory" Finalization.Resolved (by decide) (by decide)

theorem open_market_ok {now : ℕ} {m m' : Market} (h : open_market now m = .ok m') :
    (m.stage = Stage.Paused ∨ m.stage = Stage.Pending) ∧ m'.stage = Stage.Open := by
  unfold open_market at h
  cases hv : validate now m with
  | error e => rw [hv] at h; exact Except.noConfusion h
  | ok u =>
    rw [hv] at h
    dsimp only [] at h
    by_cases hst : m.stage = Stage.Paused ∨ m.stage = Stage.Pending
    · rw [if_pos hst] at h
      exact ⟨hst, by rw [← Except.ok.inj h]⟩
    · rw [if_neg hst] at h
      exact Except.noConfusion h

theorem pause_ok {m m' : Market} (h : pause m = .ok m') :
    m.stage = Stage.Open ∧ m'.stage = Stage.Paused := by
  unfold pause at h
  by_cases hst : m.stage = Stage.Open
  · rw [if_pos hst] at h
    exact ⟨hst, by rw [← Except.ok.inj h]⟩
  · rw [if_neg hst] at h
    exact Except.noConfusion h

theorem deposit_collateral_ok {m : Market} {amount : ℕ} {m' : Market}
    (h : deposit_collateral m amount = .ok m') :
    m.stage = Stage.Pending ∧ m'.stage = m.stage := by
  unfold deposit_collateral u128add at h
  by_cases hst : m.stage = Stage.Pending
  · rw [if_pos hst] at h
    by_cases hov : m.deposited_collateral + amount < U128LIMIT
    · rw [if_pos hov] at h
      dsimp only [] at h
      exact ⟨hst, by rw [← Except.ok.inj h]⟩
    · rw [if_neg hov] at h
      exact Except.noConfusion h
  · rw [if_neg hst] at h
    exact Except.noConfusion h

theorem resolve_market_ok {m : Market} {ps : List ℕ} {m' : Market}
    (h : resolve_market m ps = .ok m') :
    (m.stage = Stage.Paused ∨ m.stage = Stage.Open) ∧
    ∃ f, m'.stage = Stage.Finalized f := by
  unfold resolve_market at h
  by_cases hst : m.stage = Stage.Paused ∨ m.stage = Stage.Open
  · rw [if_pos hst] at h
    by_cases hlen : m.outcomes.length = ps.length
    · rw [if_pos hlen] at h
      cases hsum : ps.foldlM u128add 0 with
      | error e => rw [hsum] at h; exact Except.noConfusion h
      | ok s =>
        rw [hsum] at h
        dsimp only [] at h
        by_cases hres : s = m.collateral_decimals
        · rw [if_pos hres] at h
          exact ⟨hst, Finalization.Resolved, by rw [← Except.ok.inj h]⟩
        · rw [if_neg hres] at h
          by_cases hz : s = 0
          · rw [if_pos hz] at h
            exact ⟨hst, Finalization.Invalid, by rw [← Except.ok.inj h]⟩
          · rw [if_neg hz] at h
            exact Except.noConfusion h
    · rw [if_neg hlen] at h
      exact Except.noConfusion h
  · rw [if_neg hst] at h
    exact Except.noConfusion h

theorem withdraw_fees_ok {m m' : Market} {fees : ℕ}
    (h : withdraw_fees m = .ok (m', fees)) : m'.stage = m.stage := by
  unfold withdraw_fees at h
  by_cases hf : 0 < m.fees_accrued
  · rw [if_pos hf] at h
    have h2 := Except.ok.inj h
    injection h2 with hm hc
    rw [← hm]
  · rw [if_neg hf] at h
    exact Except.noConfusion h

/-- C9: every successful exposed operation (open, pause, initial deposit,
resolve, credit, debit, buy, sell, redeem, fee withdrawal) moves the stage
along an edge of the spec state machine only - stay put, Pending to Open,
Paused to Open, Open to Paused, or Open or Paused to Finalized - and in
particular no operation changes the stage of a Finalized market. -/
theorem C9_stage_monotone :
    ∀ m m' : Market, Step m m' →
      stageStep m.stage m'.stage ∧
      (∀ f, m.stage = Stage.Finalized f → m'.stage = Stage.Finalized f) := by
  intro m m' hstep
  cases hstep with
  | step_open now _ _ h =>
    obtain ⟨hpre, hpost⟩ := open_market_ok h
    refine ⟨?_, ?_⟩
    · rcases hpre with hp | hp
      · exact Or.inr (Or.inr (Or.inl ⟨hp, hpost⟩))
      · exact Or.inr (Or.inl ⟨hp, hpost⟩)
    · intro f hf
      rcases hpre with hp | hp <;> rw [hf] at hp <;> exact Stage.noConfusion hp
  | step_pause _ _ h =>
    obtain ⟨hpre, hpost⟩ := pause_ok h
    refine ⟨Or.inr (Or.inr (Or.inr (Or.inl ⟨hpre, hpost⟩))), ?_⟩
    intro f hf
    rw [hf] at hpre
    exact Stage.noConfusion hpre
  | step_deposit _ amount _ h =>
    obtain ⟨hpre, hpost⟩ := deposit_collateral_ok h
    exact ⟨Or.inl hpost, fun f hf => by rw [hpost, hf]⟩
  | step_resolve _ ps _ h =>
    obtain ⟨hpre, hpost⟩ := resolve_market_ok h
    refine ⟨Or.inr (Or.inr (Or.inr (Or.inr ⟨hpre.symm, hpost⟩))), ?_⟩
    · intro f hf
      rcases hpre with hp | hp <;> rw [hf] at hp <;> exact Stage.noConfusion hp
  | step_credit now _ a i ns _ h =>
    obtain ⟨hs, _, _, _, _, hm⟩ := credit_ok h
    subst hm
    exact ⟨Or.inl rfl, fun f hf => hf⟩
  | step_debit now _ a i ns _ h =>
    obtain ⟨hs, _, _, _, _, hm⟩ := debit_ok h
    subst hm
    exact ⟨Or.inl rfl, fun f hf => hf⟩
  | step_buy now _ s amt ns i bp _ ch h =>
    obtain ⟨m1, _, _, _, _, hcr, hdf, _⟩ := internal_buy_ok h
    obtain ⟨_, _, _, _, _, hm1⟩ := credit_ok hcr
    obtain ⟨_, hm2⟩ := deposit_fees_ok hdf
    subst hm2
    subst hm1
    exact ⟨Or.inl rfl, fun f hf => hf⟩
  | step_sell now _ s amt ns i bp _ pay h =>
    obtain ⟨m1, _, _, _, _, hdb, hdf, _⟩ := internal_sell_ok h
    obtain ⟨_, _, _, _, _, hm1⟩ := debit_ok hdb
    obtain ⟨_, hm2⟩ := deposit_fees_ok hdf
    subst hm2
    subst hm1
    exact ⟨Or.inl rfl, fun f hf => hf⟩
  | step_redeem _ a _ p h =>
    obtain ⟨hm, _⟩ := redeem_ok h
    subst hm
    exact ⟨Or.inl rfl, fun f hf => hf⟩
  | step_withdraw _ _ fees h =>
    have hpost := withdraw_fees_ok h
    exact ⟨Or.inl hpost, fun f hf => by rw [hpost, hf]⟩

/-- C9 witness: pausing the concrete open market C9m is an allowed stage
transition, by the monotonicity theorem. -/
theorem C9_stage_monotone_witness : stageStep C9m.stage C9p.stage :=
  (C9_stage_monotone C9m C9p (Step.step_pause C9m C9p (by decide))).1

theorem foldl_max_div_shift (b : ℚ) :
    ∀ (t : List ℚ) (p q : ℚ),
      t.foldl (fun a v => max a (v / b)) (max p q) =
        max p (t.foldl (fun a v => max a (v / b)) q) := by
  intro t
  induction t with
  | nil => intro p q; rfl
  | cons v s ih =>
    intro p q
    simp only [List.foldl_cons]
    rw [max_assoc]
    exact ih p (max q (v / b))

theorem code_max_eq (b : ℚ) (vs : List ℚ) :
    vs.foldl (fun acc v => if acc < v / b then v / b else acc) 0 =
      max 0 (Lmsr.spec_max b vs) := by
  have hstep : (fun (acc v : ℚ) => if acc < v / b then v / b else acc) =
      fun acc v => max acc (v / b) := by
    funext a v
    by_cases h : a < v / b
    · rw [if_pos h, max_eq_right h.le]
    · rw [if_neg h, max_eq_left (le_of_not_lt h)]
  have hstep2 : (fun (acc v : ℚ) => if acc < v then v else acc) =
      fun acc v : ℚ => max acc v := by
    funext a v
    by_cases h : a < v
    · rw [if_pos h, max_eq_right h.le]
    · rw [if_neg h, max_eq_left (le_of_not_lt h)]
  rw [hstep]
  cases vs with
  | nil => simp [Lmsr.spec_max]
  | cons x t =>
    unfold Lmsr.spec_max
    simp only [List.map_cons, hstep2]
    rw [List.foldl_map]
    simp only [List.foldl_cons]
    rw [show max (0 : ℚ) (x / b) = max 0 (max 0 (x / b)) by rw [← max_assoc, max_self],
      foldl_max_div_shift b t 0 (max 0 (x / b)),
      foldl_max_div_shift b t 0 (x / b), ← max_assoc, max_self]

/-- C7 counterexample: the implementation formula and the spec formula
disagree as functions of the primitive operations, hence cannot agree
bitwise for all inputs: with exp and ln instantiated as the identity, exact
arithmetic, b = 1 and the all-negative vector [-1, -1] (whose divisions by
1 are exact also in binary64), the code computes with shift 0 and the spec
formula with shift -1, giving -2 against -1. -/
theorem C7_counterexample :
    Lmsr.cost id id 1 [-1, -1] ≠ Lmsr.spec_cost id id 1 [-1, -1] := by
  norm_num [Lmsr.cost, Lmsr.ln_sum, Lmsr.coefficient, Lmsr.shift_exp_sum,
    Lmsr.spec_cost, Lmsr.spec_max, List.foldl, List.map]

/-- C7 (amended): the implementation evaluates the max-shift stabilized
cost with the shift clamped at zero, m = max(0, max over i of q i / b),
because the running maximum of lmsr.rs coefficient starts at 0.0.  For
every choice of the primitive exp and ln, every liquidity and every vector
whose true maximum quotient is nonnegative - in particular every vector
with some nonnegative entry and positive b - this coincides with the spec
formula b * (m + ln(sum of exp(q i / b - m))) with m the true maximum; it
differs on vectors whose quotients are all negative. -/
theorem C7_cost_stabilization :
    ∀ (fexp fln : ℚ → ℚ) (b : ℚ) (vs : List ℚ),
      0 ≤ Lmsr.spec_max b vs →
      Lmsr.cost fexp fln b vs = Lmsr.spec_cost fexp fln b vs := by
  intro fexp fln b vs hmax
  unfold Lmsr.cost Lmsr.ln_sum Lmsr.coefficient Lmsr.spec_cost
  dsimp only []
  rw [code_max_eq, max_eq_right hmax]
  ring

/-- C7 witness: on the vector [2, 1] with b = 1 the true maximum 2 is
nonnegative and the two formulas agree. -/
theorem C7_cost_stabilization_witness :
    (0 : ℚ) ≤ Lmsr.spec_max 1 [2, 1] ∧
      Lmsr.cost id id 1 [2, 1] = Lmsr.spec_cost id id 1 [2, 1] :=
  ⟨by norm_num [Lmsr.spec_max, List.foldl, List.map],
   C7_cost_stabilization id id 1 [2, 1]
     (by norm_num [Lmsr.spec_max, List.foldl, List.map])⟩

/-- C8: the trade fee equals floor(base_price / 100) * trade_fee_bps - the
rate applied as a percent of price, the floor division performed before the
multiplication - and both the buy path and the sell path accrue exactly
this fee on success. -/
theorem C8_fee_formula :
    (∀ (m : Market) (bp : ℕ), bp / 100 * m.trade_fee_bps < U128LIMIT →
      calc_fee m bp = .ok (bp / 100 * m.trade_fee_bps)) ∧
    (∀ (now : ℕ) (m : Market) (s : String) (amt ns i bp : ℕ) (m' : Market) (ch : ℕ),
      internal_buy now m s amt ns i bp = .ok (m', ch) →
      m'.fees_accrued = m.fees_accrued + bp / 100 * m.trade_fee_bps) ∧
    (∀ (now : ℕ) (m : Market) (s : String) (amt ns i bp : ℕ) (m' : Market) (pay : ℕ),
      internal_sell now m s amt ns i bp = .ok (m', pay) →
      m'.fees_accrued = m.fees_accrued + bp / 100 * m.trade_fee_bps) := by
  refine ⟨?_, ?_, ?_⟩
  · intro m bp hfit
    rw [calc_fee_eq, if_pos hfit]
  · intro now m s amt ns i bp m' ch h
    obtain ⟨m1, _, _, _, _, hcr, hdf, _⟩ := internal_buy_ok h
    obtain ⟨_, _, _, _, _, hm1⟩ := credit_ok hcr
    obtain ⟨_, hm2⟩ := deposit_fees_ok hdf
    subst hm2
    subst hm1
    rfl
  · intro now m s amt ns i bp m' pay h
    obtain ⟨m1, _, _, _, _, hdb, hdf, _⟩ := internal_sell_ok h
    obtain ⟨_, _, _, _, _, hm1⟩ := debit_ok hdb
    obtain ⟨_, hm2⟩ := deposit_fees_ok hdf
    subst hm2
    subst hm1
    rfl

/-- C8 witness: a concrete buy and a concrete sell at base price 100 and
fee rate 1 each accrue exactly floor(100 / 100) * 1 = 1. -/
theorem C8_fee_formula_witness :
    C8wbuy.fees_accrued = C8w.fees_accrued + 100 / 100 * C8w.trade_fee_bps ∧
    C8wsell.fees_accrued = C8w.fees_accrued + 100 / 100 * C8w.trade_fee_bps :=
  ⟨C8_fee_formula.2.1 0 C8w "carol" 150 3 0 100 C8wbuy 49 (by decide),
   C8_fee_formula.2.2 0 C8w "carol" 0 5 0 100 C8wsell 99 (by decide)⟩

end Currence
